import Mathlib

/-!
Shallow embedding of `packages/atomic-state-tree/atomvm.py` (AtomVM, a
State256 virtual machine) and verification of its specification.

Python strings are embedded as `List Char`; Python leaf/register/stack
values (`Union[str, int, float]`) are embedded by their textual rendering
(every operation of the program that combines or compares values only
depends on that rendering). The Python `dict` used for leaf storage is
embedded as an insertion-ordered association list with unique keys,
matching dict semantics (`d[k] = v` updates in place when the key exists,
otherwise appends).
-/

/-- Embedded Python string: a list of characters. -/
abbrev Str : Type := List Char

/-- Embedded VM value (`Union[str, int, float]` in the source), by its textual rendering. -/
abbrev Val : Type := Str

/-- Embedding of Python `s.split('.')`: splits at every dot, keeping empty
segments; the empty string splits to `[""]`. -/
def splitOnDot : Str → List Str
  | [] => [[]]
  | c :: rest =>
    if c = '.' then [] :: splitOnDot rest
    else
      match splitOnDot rest with
      | [] => [[c]]
      | s :: ss => (c :: s) :: ss

/-- Embedding of `'.'.join(parts)`: interleaves a dot between segments. -/
def joinDots : List Str → Str
  | [] => []
  | [x] => x
  | x :: xs => x ++ '.' :: joinDots xs

theorem splitOnDot_ne_nil (s : Str) : splitOnDot s ≠ [] := by
  cases s with
  | nil => simp [splitOnDot]
  | cons c rest =>
    by_cases h : c = '.'
    · simp [splitOnDot, h]
    · simp only [splitOnDot, if_neg h]
      cases splitOnDot rest <;> simp

theorem joinDots_cons (x : Str) (y : Str) (xs : List Str) :
    joinDots (x :: y :: xs) = x ++ '.' :: joinDots (y :: xs) := rfl

theorem splitOnDot_dot_cons (rest : Str) :
    splitOnDot ('.' :: rest) = [] :: splitOnDot rest := by
  simp [splitOnDot]

theorem splitOnDot_cons_ne (c : Char) (hc : c ≠ '.') (rest : Str) :
    splitOnDot (c :: rest) =
      match splitOnDot rest with
      | [] => [[c]]
      | s :: ss => (c :: s) :: ss := by
  simp [splitOnDot, hc]

/-- Joining the segments of a split with dots recovers the original string. -/
theorem joinDots_splitOnDot (s : Str) : joinDots (splitOnDot s) = s := by
  induction s with
  | nil => simp [splitOnDot, joinDots]
  | cons c rest ih =>
    by_cases h : c = '.'
    · subst h
      rw [splitOnDot_dot_cons]
      rcases hs : splitOnDot rest with _ | ⟨x, xs⟩
      · exact absurd hs (splitOnDot_ne_nil rest)
      · rw [hs] at ih
        rw [joinDots_cons]
        simp [ih]
    · rw [splitOnDot_cons_ne c h]
      rcases hs : splitOnDot rest with _ | ⟨x, xs⟩
      · exact absurd hs (splitOnDot_ne_nil rest)
      · rw [hs] at ih
        cases xs with
        | nil => simpa [joinDots] using congrArg (c :: ·) ih
        | cons y ys =>
          rw [joinDots_cons]
          rw [joinDots_cons] at ih
          simpa using congrArg (c :: ·) ih

/-- Splitting a dot-free segment followed by a dot peels off that segment. -/
theorem splitOnDot_append_cons (a : Str) (ha : '.' ∉ a) (rest : Str) :
    splitOnDot (a ++ '.' :: rest) = a :: splitOnDot rest := by
  induction a with
  | nil => simp [splitOnDot]
  | cons c cs ih =>
    have hc : c ≠ '.' := fun h => ha (h ▸ List.mem_cons_self c cs)
    have hcs : '.' ∉ cs := fun h => ha (List.mem_cons_of_mem c h)
    rw [List.cons_append, splitOnDot_cons_ne c hc, ih hcs]

/-- Splitting a dot-free string yields that single segment. -/
theorem splitOnDot_no_dot (a : Str) (ha : '.' ∉ a) : splitOnDot a = [a] := by
  induction a with
  | nil => simp [splitOnDot]
  | cons c cs ih =>
    have hc : c ≠ '.' := fun h => ha (h ▸ List.mem_cons_self c cs)
    have hcs : '.' ∉ cs := fun h => ha (List.mem_cons_of_mem c h)
    rw [splitOnDot_cons_ne c hc, ih hcs]

/-- Canonical path to an atom in State256 (`AtomPath` dataclass, atomvm.py lines 31-41). -/
structure AtomPath where
  frame : Str
  context : Str
  block : Str
  record : Str
  closure : Str
  logic : Str
  relation : Str
  atom : Str
deriving DecidableEq, Repr

/-- The canonical path string `State.<frame>...<atom>` (the f-string of
`AtomPath.to_string`, also inlined in `zero_state`). -/
def pathStr (frame context block record closure logic relation atom : Str) : Str :=
  "State".data ++ '.' :: (frame ++ '.' :: (context ++ '.' :: (block ++ '.' :: (record ++
    '.' :: (closure ++ '.' :: (logic ++ '.' :: (relation ++ '.' :: atom)))))))

/-- `AtomPath.from_string` (atomvm.py lines 43-62): split on dots; fail unless
there are exactly 9 parts with first part `"State"`; otherwise populate the
eight fields in order. The `try`/`except` of the source cannot fire (tuple
construction from strings never raises). -/
def AtomPath.from_string (path_str : Str) : Option AtomPath :=
  match splitOnDot path_str with
  | [s0, f, c, b, r, cl, l, rel, a] =>
    if s0 = "State".data then some ⟨f, c, b, r, cl, l, rel, a⟩ else none
  | _ => none

/-- `AtomPath.to_string` (atomvm.py lines 64-66). -/
def AtomPath.to_string (p : AtomPath) : Str :=
  pathStr p.frame p.context p.block p.record p.closure p.logic p.relation p.atom

/-- Domain vocabulary (shared by `AtomPath.validate` lines 68-88 and
`AtomVM._init_domains` lines 117-126, which list identical values). -/
def frames : List Str := ["FrameA".data, "FrameB".data]

def contexts : List Str := ["Local".data, "Remote".data, "Proposed".data, "Canonical".data]

def blocks : List Str := ["Block1".data, "Block2".data]

def records : List Str := ["Record1".data, "Record2".data]

def closures : List Str := ["Closure1".data, "Closure2".data]

def logics : List Str := ["Logic1".data, "Logic2".data]

def relations : List Str := ["Relation1".data, "Relation2".data]

def atoms : List Str := ["L".data, "R".data]

/-- `AtomPath.validate` (atomvm.py lines 68-88): each component must belong to
its fixed domain set. -/
def AtomPath.validate (p : AtomPath) : Bool :=
  decide (p.frame ∈ frames) && decide (p.context ∈ contexts) &&
  decide (p.block ∈ blocks) && decide (p.record ∈ records) &&
  decide (p.closure ∈ closures) && decide (p.logic ∈ logics) &&
  decide (p.relation ∈ relations) && decide (p.atom ∈ atoms)

theorem splitOnDot_pathStr (f c b r cl l rel a : Str)
    (hf : '.' ∉ f) (hc : '.' ∉ c) (hb : '.' ∉ b) (hr : '.' ∉ r)
    (hcl : '.' ∉ cl) (hl : '.' ∉ l) (hrel : '.' ∉ rel) (ha : '.' ∉ a) :
    splitOnDot (pathStr f c b r cl l rel a) =
      ["State".data, f, c, b, r, cl, l, rel, a] := by
  have hS : '.' ∉ "State".data := by decide
  unfold pathStr
  rw [splitOnDot_append_cons _ hS, splitOnDot_append_cons _ hf,
    splitOnDot_append_cons _ hc, splitOnDot_append_cons _ hb,
    splitOnDot_append_cons _ hr, splitOnDot_append_cons _ hcl,
    splitOnDot_append_cons _ hl, splitOnDot_append_cons _ hrel,
    splitOnDot_no_dot _ ha]

/-- No word of any domain vocabulary contains a dot. -/
theorem domains_no_dot :
    (∀ x ∈ frames, '.' ∉ x) ∧ (∀ x ∈ contexts, '.' ∉ x) ∧ (∀ x ∈ blocks, '.' ∉ x) ∧
    (∀ x ∈ records, '.' ∉ x) ∧ (∀ x ∈ closures, '.' ∉ x) ∧ (∀ x ∈ logics, '.' ∉ x) ∧
    (∀ x ∈ relations, '.' ∉ x) ∧ (∀ x ∈ atoms, '.' ∉ x) := by
  decide

theorem joinDots_nine (f c b r cl l rel a : Str) :
    joinDots (["State".data, f, c, b, r, cl, l, rel, a]) = pathStr f c b r cl l rel a := by
  simp [joinDots, pathStr]

theorem from_string_of_splitOnDot (s : Str) (f c b r cl l rel a : Str)
    (h : splitOnDot s = ["State".data, f, c, b, r, cl, l, rel, a]) :
    AtomPath.from_string s = some ⟨f, c, b, r, cl, l, rel, a⟩ := by
  unfold AtomPath.from_string
  rw [h]
  simp

theorem to_string_of_splitOnDot (s : Str) (f c b r cl l rel a : Str)
    (h : splitOnDot s = ["State".data, f, c, b, r, cl, l, rel, a]) :
    (AtomPath.mk f c b r cl l rel a).to_string = s := by
  have := joinDots_splitOnDot s
  rw [h, joinDots_nine] at this
  exact this

/-- A domain-valid path has no dot in any component. -/
theorem validate_no_dot (p : AtomPath) (h : p.validate = true) :
    '.' ∉ p.frame ∧ '.' ∉ p.context ∧ '.' ∉ p.block ∧ '.' ∉ p.record ∧
    '.' ∉ p.closure ∧ '.' ∉ p.logic ∧ '.' ∉ p.relation ∧ '.' ∉ p.atom := by
  unfold AtomPath.validate at h
  simp only [Bool.and_eq_true, decide_eq_true_eq] at h
  obtain ⟨⟨⟨⟨⟨⟨⟨h1, h2⟩, h3⟩, h4⟩, h5⟩, h6⟩, h7⟩, h8⟩ := h
  exact ⟨domains_no_dot.1 _ h1, domains_no_dot.2.1 _ h2, domains_no_dot.2.2.1 _ h3,
    domains_no_dot.2.2.2.1 _ h4, domains_no_dot.2.2.2.2.1 _ h5,
    domains_no_dot.2.2.2.2.2.1 _ h6, domains_no_dot.2.2.2.2.2.2.1 _ h7,
    domains_no_dot.2.2.2.2.2.2.2 _ h8⟩

/-- Serialization of a path with dot-free components splits back to its segments. -/
theorem splitOnDot_to_string (p : AtomPath)
    (hf : '.' ∉ p.frame) (hc : '.' ∉ p.context) (hb : '.' ∉ p.block) (hr : '.' ∉ p.record)
    (hcl : '.' ∉ p.closure) (hl : '.' ∉ p.logic) (hrel : '.' ∉ p.relation) (ha : '.' ∉ p.atom) :
    splitOnDot p.to_string =
      ["State".data, p.frame, p.context, p.block, p.record, p.closure, p.logic,
        p.relation, p.atom] :=
  splitOnDot_pathStr _ _ _ _ _ _ _ _ hf hc hb hr hcl hl hrel ha

theorem from_string_to_string (p : AtomPath) (h : p.validate = true) :
    AtomPath.from_string p.to_string = some p := by
  obtain ⟨hf, hc, hb, hr, hcl, hl, hrel, ha⟩ := validate_no_dot p h
  exact from_string_of_splitOnDot _ _ _ _ _ _ _ _ _
    (splitOnDot_to_string p hf hc hb hr hcl hl hrel ha)

/-- Case analysis for the parser: either the input splits into exactly nine
segments headed by `State` and parsing succeeds with the eight remaining
segments in order, or it does not and parsing fails. -/
theorem from_string_cases (s : Str) :
    (∃ f c b r cl l rel a, splitOnDot s = ["State".data, f, c, b, r, cl, l, rel, a] ∧
      AtomPath.from_string s = some ⟨f, c, b, r, cl, l, rel, a⟩) ∨
    (¬((splitOnDot s).length = 9 ∧ (splitOnDot s).head? = some "State".data) ∧
      AtomPath.from_string s = none) := by
  rcases hs : splitOnDot s with _ | ⟨x0, _ | ⟨x1, _ | ⟨x2, _ | ⟨x3, _ | ⟨x4, _ | ⟨x5,
    _ | ⟨x6, _ | ⟨x7, _ | ⟨x8, rest⟩⟩⟩⟩⟩⟩⟩⟩⟩
  case nil => exact Or.inr ⟨by simp, by unfold AtomPath.from_string; rw [hs]⟩
  case cons.nil => exact Or.inr ⟨by simp, by unfold AtomPath.from_string; rw [hs]⟩
  case cons.cons.nil => exact Or.inr ⟨by simp, by unfold AtomPath.from_string; rw [hs]⟩
  case cons.cons.cons.nil => exact Or.inr ⟨by simp, by unfold AtomPath.from_string; rw [hs]⟩
  case cons.cons.cons.cons.nil =>
    exact Or.inr ⟨by simp, by unfold AtomPath.from_string; rw [hs]⟩
  case cons.cons.cons.cons.cons.nil =>
    exact Or.inr ⟨by simp, by unfold AtomPath.from_string; rw [hs]⟩
  case cons.cons.cons.cons.cons.cons.nil =>
    exact Or.inr ⟨by simp, by unfold AtomPath.from_string; rw [hs]⟩
  case cons.cons.cons.cons.cons.cons.cons.nil =>
    exact Or.inr ⟨by simp, by unfold AtomPath.from_string; rw [hs]⟩
  case cons.cons.cons.cons.cons.cons.cons.cons.nil =>
    exact Or.inr ⟨by simp, by unfold AtomPath.from_string; rw [hs]⟩
  case cons.cons.cons.cons.cons.cons.cons.cons.cons =>
    cases rest with
    | cons y ys =>
      exact Or.inr ⟨by simp [hs], by unfold AtomPath.from_string; rw [hs]⟩
    | nil =>
      by_cases hx0 : x0 = "State".data
      · subst hx0
        exact Or.inl ⟨x1, x2, x3, x4, x5, x6, x7, x8, rfl,
          from_string_of_splitOnDot s _ _ _ _ _ _ _ _ hs⟩
      · refine Or.inr ⟨by simp [hs, hx0], ?_⟩
        unfold AtomPath.from_string
        rw [hs]
        simp [hx0]

/-- Python `dict` lookup `d.get(k)` on the insertion-ordered association list:
the entry for a key, if present. -/
def dictGet : List (Str × Val) → Str → Option Val
  | [], _ => none
  | e :: rest, k => if e.1 = k then some e.2 else dictGet rest k

/-- Python `dict` store `d[k] = v`: update the existing entry in place if the
key is present, otherwise append a new entry at the end. -/
def dictSet : List (Str × Val) → Str → Val → List (Str × Val)
  | [], k, v => [(k, v)]
  | e :: rest, k, v => if e.1 = k then (k, v) :: rest else e :: dictSet rest k v

/-- `VMState` dataclass (atomvm.py lines 91-107): four register banks, the
stack, the leaf storage dict and the program counter. -/
structure VMState where
  logic4 : List Val
  record16 : List Val
  context64 : List Val
  state256 : List Val
  stack : List Val
  leaves : List (Str × Val)
  pc : Int
deriving Repr

/-- The freshly constructed `VMState()`: every register position `Ø`, empty
stack, empty leaf dict, pc 0. -/
def VMState.init : VMState where
  logic4 := List.replicate 4 "Ø".data
  record16 := List.replicate 16 "Ø".data
  context64 := List.replicate 64 "Ø".data
  state256 := List.replicate 256 "Ø".data
  stack := []
  leaves := []
  pc := 0

/-- The 256 canonical path strings in the nesting order of `AtomVM.zero_state`
(atomvm.py lines 128-142): frame outermost, atom innermost. -/
def allPaths : List Str :=
  frames.flatMap fun frame => contexts.flatMap fun context =>
  blocks.flatMap fun block => records.flatMap fun record =>
  closures.flatMap fun closure => logics.flatMap fun logic =>
  relations.flatMap fun relation => atoms.map fun atom =>
    pathStr frame context block record closure logic relation atom

/-- `AtomVM.zero_state` (atomvm.py lines 128-142): write `Ø` at every canonical
path in enumeration order; return the new state and the generated paths. -/
def AtomVM.zero_state (s : VMState) : VMState × List Str :=
  ({ s with leaves := allPaths.foldl (fun d p => dictSet d p "Ø".data) s.leaves }, allPaths)

/-- `AtomVM.set_leaf` (atomvm.py lines 144-152): parse and validate the path;
on failure report `False` and leave the state untouched; on success store the
value (an empty string is replaced by `Ø`) and report `True`. -/
def AtomVM.set_leaf (s : VMState) (path : Str) (value : Val) : VMState × Bool :=
  match AtomPath.from_string path with
  | none => (s, false)
  | some atom_path =>
    if atom_path.validate then
      ({ s with leaves := dictSet s.leaves path (if value = [] then "Ø".data else value) }, true)
    else (s, false)

/-- `AtomVM.get_leaf` (atomvm.py lines 154-161): parse and validate the path;
on failure report `none`; on success return the stored value, defaulting to
`Ø` for a never-written key. Reads no mutable state besides the dict and
performs no mutation. -/
def AtomVM.get_leaf (s : VMState) (path : Str) : Option Val :=
  match AtomPath.from_string path with
  | none => none
  | some atom_path =>
    if atom_path.validate then some ((dictGet s.leaves path).getD "Ø".data) else none

/-- The register-load loop `for i in range(min(count, len(values))):
bank[start + i] = values[i]`, shared by the four load operations. -/
def loadSeg (bank : List Val) (start : Nat) (values : List Val) (count : Nat) : List Val :=
  match count, values with
  | 0, _ => bank
  | _ + 1, [] => bank
  | c + 1, v :: vs => loadSeg (bank.set start v) (start + 1) vs c

/-- `AtomVM.load_to_logic4` (atomvm.py lines 163-166). -/
def AtomVM.load_to_logic4 (s : VMState) (values : List Val) : VMState :=
  { s with logic4 := loadSeg s.logic4 0 values 4 }

/-- `AtomVM.load_to_record16` (atomvm.py lines 168-171). -/
def AtomVM.load_to_record16 (s : VMState) (values : List Val) : VMState :=
  { s with record16 := loadSeg s.record16 0 values 16 }

/-- `AtomVM.load_to_context64` (atomvm.py lines 173-178): only if
`0 <= batch < 4`, copy up to 16 values starting at `batch * 16`. -/
def AtomVM.load_to_context64 (s : VMState) (batch : Int) (values : List Val) : VMState :=
  if 0 ≤ batch ∧ batch < 4 then
    { s with context64 := loadSeg s.context64 (batch.toNat * 16) values 16 }
  else s

/-- `AtomVM.load_to_state256` (atomvm.py lines 180-185): only if
`0 <= batch < 16`, copy up to 16 values starting at `batch * 16`. -/
def AtomVM.load_to_state256 (s : VMState) (batch : Int) (values : List Val) : VMState :=
  if 0 ≤ batch ∧ batch < 16 then
    { s with state256 := loadSeg s.state256 (batch.toNat * 16) values 16 }
  else s

/-- `AtomVM.push_stack` (atomvm.py lines 187-189): `list.append`, the top of
the stack is the last element. -/
def AtomVM.push_stack (s : VMState) (value : Val) : VMState :=
  { s with stack := s.stack ++ [value] }

/-- `AtomVM.pop_stack` (atomvm.py lines 191-193): `list.pop()` when non-empty,
`None` (and no change) when empty. -/
def AtomVM.pop_stack (s : VMState) : Option Val × VMState :=
  match s.stack.getLast? with
  | none => (none, s)
  | some v => (some v, { s with stack := s.stack.dropLast })

/-- `AtomVM.pair` (atomvm.py lines 195-197): the f-string `"({a} . {b})"`. -/
def pair (a b : Val) : Val :=
  '(' :: (a ++ ' ' :: '.' :: ' ' :: (b ++ [')']))

/-- One pass of the inner loop of `AtomVM.build_tree` (atomvm.py lines 207-215):
scan left to right in steps of two, replacing each complete pair and appending
a final unpaired element unchanged at the end of the next level. -/
def pairStep : List Val → List Val
  | x :: y :: rest => pair x y :: pairStep rest
  | l => l

theorem pairStep_length (l : List Val) : (pairStep l).length = (l.length + 1) / 2 := by
  induction l using pairStep.induct with
  | case1 x y rest ih => simp [pairStep, ih]; omega
  | case2 l h => cases l with
    | nil => simp [pairStep]
    | cons x xs =>
      cases xs with
      | nil => simp [pairStep]
      | cons y ys => exact absurd rfl (h x y ys)

/-- `AtomVM.build_tree` (atomvm.py lines 199-217): empty input yields `Ø`; a
single element is the result; otherwise run one halving pass and repeat. -/
def build_tree (atoms : List Val) : Val :=
  match atoms with
  | [] => "Ø".data
  | [x] => x
  | x :: y :: rest => build_tree (pairStep (x :: y :: rest))
termination_by atoms.length
decreasing_by
  simp [pairStep_length, pairStep]
  omega


theorem dictGet_dictSet_self (d : List (Str × Val)) (k : Str) (v : Val) :
    dictGet (dictSet d k v) k = some v := by
  induction d with
  | nil => simp [dictGet, dictSet]
  | cons e rest ih =>
    by_cases h : e.1 = k
    · simp [dictGet, dictSet, h]
    · simp [dictGet, dictSet, h, ih]

theorem dictGet_dictSet_of_ne (d : List (Str × Val)) (k k' : Str) (v : Val) (hne : k' ≠ k) :
    dictGet (dictSet d k v) k' = dictGet d k' := by
  induction d with
  | nil => simp [dictGet, dictSet, hne.symm]
  | cons e rest ih =>
    by_cases h : e.1 = k
    · have h'' : ¬(e.1 = k') := fun hh => hne (hh.symm.trans h)
      simp [dictGet, dictSet, h, h'', hne.symm]
    · by_cases h2 : e.1 = k'
      · simp [dictGet, dictSet, h, h2, hne]
      · simp [dictGet, dictSet, h, h2, ih]

/-- Keys of the dict after a store: unchanged if the key was present,
otherwise extended by the new key at the end. -/
theorem dictSet_keys (d : List (Str × Val)) (k : Str) (v : Val) :
    (dictSet d k v).map Prod.fst =
      if k ∈ d.map Prod.fst then d.map Prod.fst else d.map Prod.fst ++ [k] := by
  induction d with
  | nil => simp [dictSet]
  | cons e rest ih =>
    by_cases h : e.1 = k
    · simp [dictSet, h]
    · have hk : ¬(k = e.1) := fun hh => h hh.symm
      by_cases h2 : k ∈ rest.map Prod.fst
      · simp [dictSet, h, ih, h2, hk]
      · simp [dictSet, h, ih, h2, hk]

theorem dictSet_length_of_mem (d : List (Str × Val)) (k : Str) (v : Val)
    (h : k ∈ d.map Prod.fst) : (dictSet d k v).length = d.length := by
  have hkeys := congrArg List.length (dictSet_keys d k v)
  rw [if_pos h] at hkeys
  simpa using hkeys

theorem dictSet_length_of_not_mem (d : List (Str × Val)) (k : Str) (v : Val)
    (h : k ∉ d.map Prod.fst) : (dictSet d k v).length = d.length + 1 := by
  have hkeys := congrArg List.length (dictSet_keys d k v)
  rw [if_neg h] at hkeys
  simpa using hkeys

theorem dictSet_keys_nodup (d : List (Str × Val)) (k : Str) (v : Val)
    (h : (d.map Prod.fst).Nodup) : ((dictSet d k v).map Prod.fst).Nodup := by
  rw [dictSet_keys]
  by_cases hm : k ∈ d.map Prod.fst
  · rwa [if_pos hm]
  · rw [if_neg hm]
    refine List.Nodup.append h (List.nodup_singleton k) ?_
    intro x hx hx'
    rw [List.mem_singleton] at hx'
    exact hm (hx' ▸ hx)

theorem dictSet_keys_subset (d : List (Str × Val)) (k : Str) (v : Val) (x : Str)
    (hx : x ∈ (dictSet d k v).map Prod.fst) : x ∈ d.map Prod.fst ∨ x = k := by
  rw [dictSet_keys] at hx
  by_cases hm : k ∈ d.map Prod.fst
  · rw [if_pos hm] at hx
    exact Or.inl hx
  · rw [if_neg hm] at hx
    rcases List.mem_append.1 hx with h1 | h1
    · exact Or.inl h1
    · exact Or.inr (by simpa using h1)

theorem dictGet_foldl_not_mem (paths : List Str) (d : List (Str × Val)) (k : Str) (v : Val)
    (h : k ∉ paths) :
    dictGet (paths.foldl (fun d p => dictSet d p v) d) k = dictGet d k := by
  induction paths generalizing d with
  | nil => rfl
  | cons p rest ih =>
    have hp : k ≠ p := fun hh => h (hh ▸ List.mem_cons_self p rest)
    have hrest : k ∉ rest := fun hh => h (List.mem_cons_of_mem p hh)
    rw [List.foldl_cons, ih _ hrest, dictGet_dictSet_of_ne _ _ _ _ hp]

theorem dictGet_foldl_mem (paths : List Str) (d : List (Str × Val)) (k : Str) (v : Val)
    (h : k ∈ paths) :
    dictGet (paths.foldl (fun d p => dictSet d p v) d) k = some v := by
  induction paths generalizing d with
  | nil => cases h
  | cons p rest ih =>
    rw [List.foldl_cons]
    by_cases hrest : k ∈ rest
    · exact ih _ hrest
    · have hp : k = p := by
        rcases List.mem_cons.1 h with h1 | h1
        · exact h1
        · exact absurd h1 hrest
      rw [dictGet_foldl_not_mem _ _ _ _ hrest, hp, dictGet_dictSet_self]

theorem foldl_dictSet_keys_nodup (paths : List Str) (d : List (Str × Val)) (v : Val)
    (h : (d.map Prod.fst).Nodup) :
    (((paths.foldl (fun d p => dictSet d p v) d)).map Prod.fst).Nodup := by
  induction paths generalizing d with
  | nil => exact h
  | cons p rest ih => exact ih _ (dictSet_keys_nodup d p v h)

theorem foldl_dictSet_keys_subset (paths : List Str) (d : List (Str × Val)) (v : Val) (x : Str)
    (hx : x ∈ (paths.foldl (fun d p => dictSet d p v) d).map Prod.fst) :
    x ∈ d.map Prod.fst ∨ x ∈ paths := by
  induction paths generalizing d with
  | nil => exact Or.inl hx
  | cons p rest ih =>
    rw [List.foldl_cons] at hx
    rcases ih _ hx with h1 | h1
    · rcases dictSet_keys_subset d p v x h1 with h2 | h2
      · exact Or.inl h2
      · exact Or.inr (h2 ▸ List.mem_cons_self p rest)
    · exact Or.inr (List.mem_cons_of_mem p h1)

theorem foldl_dictSet_length_fresh (paths : List Str) (d : List (Str × Val)) (v : Val)
    (hnd : paths.Nodup) (hfresh : ∀ p ∈ paths, p ∉ d.map Prod.fst) :
    (paths.foldl (fun d p => dictSet d p v) d).length = d.length + paths.length := by
  induction paths generalizing d with
  | nil => rfl
  | cons p rest ih =>
    rw [List.foldl_cons]
    have hp : p ∉ d.map Prod.fst := hfresh p (List.mem_cons_self p rest)
    have hnd' : rest.Nodup := (List.nodup_cons.1 hnd).2
    have hpnotrest : p ∉ rest := (List.nodup_cons.1 hnd).1
    have hfresh' : ∀ q ∈ rest, q ∉ (dictSet d p v).map Prod.fst := by
      intro q hq hqmem
      rcases dictSet_keys_subset d p v q hqmem with h1 | h1
      · exact hfresh q (List.mem_cons_of_mem p hq) h1
      · exact hpnotrest (h1 ▸ hq)
    rw [ih _ hnd' hfresh', dictSet_length_of_not_mem d p v hp]
    simp only [List.length_cons]
    omega

theorem loadSeg_length (bank : List Val) (start : Nat) (values : List Val) (count : Nat) :
    (loadSeg bank start values count).length = bank.length := by
  induction bank, start, values, count using loadSeg.induct with
  | case1 => simp [loadSeg]
  | case2 => simp [loadSeg]
  | _ => simp_all [loadSeg, List.length_set]

/-- Pointwise description of the register-load loop: positions inside the
written window take the corresponding input value, all others are unchanged. -/
theorem loadSeg_getElem? (bank : List Val) (start : Nat) (values : List Val) (count : Nat)
    (j : Nat) :
    (loadSeg bank start values count)[j]? =
      if start ≤ j ∧ j < start + min count values.length ∧ j < bank.length
      then values[j - start]? else bank[j]? := by
  induction bank, start, values, count using loadSeg.induct with
  | case1 values bank start =>
    rw [if_neg (by simp [Nat.zero_min]; omega)]
    simp [loadSeg]
  | case2 bank start c =>
    rw [if_neg (by simp; omega)]
    simp [loadSeg]
  | case3 bank start c v vs ih =>
    show (loadSeg (bank.set start v) (start + 1) vs c)[j]? = _
    rw [ih]
    by_cases hjlen : j < bank.length
    · by_cases hjs : j = start
      · subst hjs
        rw [if_neg (by omega)]
        rw [List.getElem?_set_eq_of_lt v hjlen]
        rw [if_pos (by simp [Nat.succ_min_succ]; omega)]
        simp
      · rw [List.getElem?_set_ne (Ne.symm hjs)]
        rw [List.length_set]
        by_cases hwin : start + 1 ≤ j ∧ j < start + 1 + min c vs.length ∧ j < bank.length
        · rw [if_pos hwin, if_pos (by simp [Nat.succ_min_succ]; omega)]
          have hj1 : j - start = (j - (start + 1)) + 1 := by omega
          rw [hj1]
          simp
        · rw [if_neg hwin, if_neg (by simp [Nat.succ_min_succ] at hwin ⊢; omega)]
    · rw [List.length_set]
      rw [if_neg (by omega), if_neg (by omega)]
      by_cases hs : start < bank.length
      · rw [List.getElem?_set_ne (by omega)]
      · rw [List.set_eq_of_length_le (by omega)]

/-- Nested flatMaps with a field selector that recovers the outer index have
no duplicates when each level is duplicate-free. -/
theorem nodup_flatMap_field {α β : Type} {l : List α} {g : α → List β} (field : β → α)
    (hl : l.Nodup) (hg : ∀ x ∈ l, (g x).Nodup) (hfield : ∀ x ∈ l, ∀ p ∈ g x, field p = x) :
    (l.flatMap g).Nodup := by
  rw [List.nodup_flatMap]
  refine ⟨hg, ?_⟩
  refine List.Pairwise.imp_of_mem ?_ hl
  intro x y hx hy hne
  intro p hpx hpy
  exact hne ((hfield x hx p hpx).symm.trans (hfield y hy p hpy))

/-- Tuple-level image of the innermost loop of `zero_state`. -/
def tuplesA (f c b r cl l rel : Str) : List AtomPath :=
  atoms.map fun a => ⟨f, c, b, r, cl, l, rel, a⟩

def tuplesRel (f c b r cl l : Str) : List AtomPath :=
  relations.flatMap fun rel => tuplesA f c b r cl l rel

def tuplesL (f c b r cl : Str) : List AtomPath :=
  logics.flatMap fun l => tuplesRel f c b r cl l

def tuplesCl (f c b r : Str) : List AtomPath :=
  closures.flatMap fun cl => tuplesL f c b r cl

def tuplesR (f c b : Str) : List AtomPath :=
  records.flatMap fun r => tuplesCl f c b r

def tuplesB (f c : Str) : List AtomPath :=
  blocks.flatMap fun b => tuplesR f c b

def tuplesC (f : Str) : List AtomPath :=
  contexts.flatMap fun c => tuplesB f c

/-- The 512 canonical tuples in the enumeration order of `zero_state`. -/
def allTuples : List AtomPath :=
  frames.flatMap fun f => tuplesC f

theorem mem_tuplesA_fields (f c b r cl l rel : Str) (p : AtomPath)
    (h : p ∈ tuplesA f c b r cl l rel) :
    p.frame = f ∧ p.context = c ∧ p.block = b ∧ p.record = r ∧ p.closure = cl ∧
      p.logic = l ∧ p.relation = rel ∧ p.atom ∈ atoms := by
  simp only [tuplesA, List.mem_map] at h
  obtain ⟨a, ha, rfl⟩ := h
  exact ⟨rfl, rfl, rfl, rfl, rfl, rfl, rfl, ha⟩

theorem mem_tuplesRel_fields (f c b r cl l : Str) (p : AtomPath)
    (h : p ∈ tuplesRel f c b r cl l) :
    p.frame = f ∧ p.context = c ∧ p.block = b ∧ p.record = r ∧ p.closure = cl ∧
      p.logic = l := by
  simp only [tuplesRel, List.mem_flatMap] at h
  obtain ⟨rel, _, hp⟩ := h
  obtain ⟨h1, h2, h3, h4, h5, h6, _, _⟩ := mem_tuplesA_fields _ _ _ _ _ _ _ _ hp
  exact ⟨h1, h2, h3, h4, h5, h6⟩

theorem mem_tuplesL_fields (f c b r cl : Str) (p : AtomPath) (h : p ∈ tuplesL f c b r cl) :
    p.frame = f ∧ p.context = c ∧ p.block = b ∧ p.record = r ∧ p.closure = cl := by
  simp only [tuplesL, List.mem_flatMap] at h
  obtain ⟨l, _, hp⟩ := h
  obtain ⟨h1, h2, h3, h4, h5, _⟩ := mem_tuplesRel_fields _ _ _ _ _ _ _ hp
  exact ⟨h1, h2, h3, h4, h5⟩

theorem mem_tuplesCl_fields (f c b r : Str) (p : AtomPath) (h : p ∈ tuplesCl f c b r) :
    p.frame = f ∧ p.context = c ∧ p.block = b ∧ p.record = r := by
  simp only [tuplesCl, List.mem_flatMap] at h
  obtain ⟨cl, _, hp⟩ := h
  obtain ⟨h1, h2, h3, h4, _⟩ := mem_tuplesL_fields _ _ _ _ _ _ hp
  exact ⟨h1, h2, h3, h4⟩

theorem mem_tuplesR_fields (f c b : Str) (p : AtomPath) (h : p ∈ tuplesR f c b) :
    p.frame = f ∧ p.context = c ∧ p.block = b := by
  simp only [tuplesR, List.mem_flatMap] at h
  obtain ⟨r, _, hp⟩ := h
  obtain ⟨h1, h2, h3, _⟩ := mem_tuplesCl_fields _ _ _ _ _ hp
  exact ⟨h1, h2, h3⟩

theorem mem_tuplesB_fields (f c : Str) (p : AtomPath) (h : p ∈ tuplesB f c) :
    p.frame = f ∧ p.context = c := by
  simp only [tuplesB, List.mem_flatMap] at h
  obtain ⟨b, _, hp⟩ := h
  obtain ⟨h1, h2, _⟩ := mem_tuplesR_fields _ _ _ _ hp
  exact ⟨h1, h2⟩

theorem mem_tuplesC_fields (f : Str) (p : AtomPath) (h : p ∈ tuplesC f) : p.frame = f := by
  simp only [tuplesC, List.mem_flatMap] at h
  obtain ⟨c, _, hp⟩ := h
  exact (mem_tuplesB_fields _ _ _ hp).1

theorem domains_nodup :
    frames.Nodup ∧ contexts.Nodup ∧ blocks.Nodup ∧ records.Nodup ∧ closures.Nodup ∧
      logics.Nodup ∧ relations.Nodup ∧ atoms.Nodup := by
  decide

theorem allTuples_nodup : allTuples.Nodup := by
  refine nodup_flatMap_field AtomPath.frame domains_nodup.1 ?_ ?_
  · intro f _
    refine nodup_flatMap_field AtomPath.context domains_nodup.2.1 ?_ ?_
    · intro c _
      refine nodup_flatMap_field AtomPath.block domains_nodup.2.2.1 ?_ ?_
      · intro b _
        refine nodup_flatMap_field AtomPath.record domains_nodup.2.2.2.1 ?_ ?_
        · intro r _
          refine nodup_flatMap_field AtomPath.closure domains_nodup.2.2.2.2.1 ?_ ?_
          · intro cl _
            refine nodup_flatMap_field AtomPath.logic domains_nodup.2.2.2.2.2.1 ?_ ?_
            · intro l _
              refine nodup_flatMap_field AtomPath.relation domains_nodup.2.2.2.2.2.2.1 ?_ ?_
              · intro rel _
                exact List.Nodup.map (fun a1 a2 h => congrArg AtomPath.atom h)
                  domains_nodup.2.2.2.2.2.2.2
              · intro rel _ p hp
                exact (mem_tuplesA_fields _ _ _ _ _ _ _ _ hp).2.2.2.2.2.2.1
            · intro l _ p hp
              exact (mem_tuplesRel_fields _ _ _ _ _ _ _ hp).2.2.2.2.2
          · intro cl _ p hp
            exact (mem_tuplesL_fields _ _ _ _ _ _ hp).2.2.2.2
        · intro r _ p hp
          exact (mem_tuplesCl_fields _ _ _ _ _ hp).2.2.2
      · intro b _ p hp
        exact (mem_tuplesR_fields _ _ _ _ hp).2.2
    · intro c _ p hp
      exact (mem_tuplesB_fields _ _ _ hp).2
  · intro f _ p hp
    exact mem_tuplesC_fields _ _ hp

theorem mem_allTuples_iff (p : AtomPath) :
    p ∈ allTuples ↔
      p.frame ∈ frames ∧ p.context ∈ contexts ∧ p.block ∈ blocks ∧ p.record ∈ records ∧
      p.closure ∈ closures ∧ p.logic ∈ logics ∧ p.relation ∈ relations ∧ p.atom ∈ atoms := by
  constructor
  · intro h
    simp only [allTuples, tuplesC, tuplesB, tuplesR, tuplesCl, tuplesL, tuplesRel, tuplesA,
      List.mem_flatMap, List.mem_map] at h
    obtain ⟨f, hf, c, hc, b, hb, r, hr, cl, hcl, l, hl, rel, hrel, a, ha, rfl⟩ := h
    exact ⟨hf, hc, hb, hr, hcl, hl, hrel, ha⟩
  · intro h
    simp only [allTuples, tuplesC, tuplesB, tuplesR, tuplesCl, tuplesL, tuplesRel, tuplesA,
      List.mem_flatMap, List.mem_map]
    exact ⟨p.frame, h.1, p.context, h.2.1, p.block, h.2.2.1, p.record, h.2.2.2.1,
      p.closure, h.2.2.2.2.1, p.logic, h.2.2.2.2.2.1, p.relation, h.2.2.2.2.2.2.1,
      p.atom, h.2.2.2.2.2.2.2, rfl⟩

theorem allTuples_validate (p : AtomPath) (h : p ∈ allTuples) : p.validate = true := by
  rw [mem_allTuples_iff] at h
  unfold AtomPath.validate
  simp only [Bool.and_eq_true, decide_eq_true_eq]
  exact ⟨⟨⟨⟨⟨⟨⟨h.1, h.2.1⟩, h.2.2.1⟩, h.2.2.2.1⟩, h.2.2.2.2.1⟩, h.2.2.2.2.2.1⟩,
    h.2.2.2.2.2.2.1⟩, h.2.2.2.2.2.2.2⟩

theorem allPaths_eq_map : allPaths = allTuples.map AtomPath.to_string := by
  simp only [allPaths, allTuples, tuplesC, tuplesB, tuplesR, tuplesCl, tuplesL, tuplesRel,
    tuplesA, List.map_flatMap, List.map_map]
  rfl

theorem allPaths_nodup : allPaths.Nodup := by
  rw [allPaths_eq_map]
  refine List.Nodup.map_on ?_ allTuples_nodup
  intro p hp q hq heq
  obtain ⟨hpf, hpc, hpb, hpr, hpcl, hpl, hprel, hpa⟩ := (mem_allTuples_iff p).1 hp
  obtain ⟨hqf, hqc, hqb, hqr, hqcl, hql, hqrel, hqa⟩ := (mem_allTuples_iff q).1 hq
  have hsp := splitOnDot_to_string p (domains_no_dot.1 _ hpf) (domains_no_dot.2.1 _ hpc)
    (domains_no_dot.2.2.1 _ hpb) (domains_no_dot.2.2.2.1 _ hpr)
    (domains_no_dot.2.2.2.2.1 _ hpcl) (domains_no_dot.2.2.2.2.2.1 _ hpl)
    (domains_no_dot.2.2.2.2.2.2.1 _ hprel) (domains_no_dot.2.2.2.2.2.2.2 _ hpa)
  have hsq := splitOnDot_to_string q (domains_no_dot.1 _ hqf) (domains_no_dot.2.1 _ hqc)
    (domains_no_dot.2.2.1 _ hqb) (domains_no_dot.2.2.2.1 _ hqr)
    (domains_no_dot.2.2.2.2.1 _ hqcl) (domains_no_dot.2.2.2.2.2.1 _ hql)
    (domains_no_dot.2.2.2.2.2.2.1 _ hqrel) (domains_no_dot.2.2.2.2.2.2.2 _ hqa)
  rw [heq, hsq] at hsp
  cases p
  cases q
  simp only [List.cons.injEq] at hsp
  simp_all

theorem validate_to_string_mem (p : AtomPath) (h : p.validate = true) :
    p.to_string ∈ allPaths := by
  rw [allPaths_eq_map]
  refine List.mem_map.2 ⟨p, ?_, rfl⟩
  rw [mem_allTuples_iff]
  unfold AtomPath.validate at h
  simp only [Bool.and_eq_true, decide_eq_true_eq] at h
  exact ⟨h.1.1.1.1.1.1.1, h.1.1.1.1.1.1.2, h.1.1.1.1.1.2, h.1.1.1.1.2, h.1.1.1.2,
    h.1.1.2, h.1.2, h.2⟩

/-- Every path string generated by `zero_state` parses and validates, and
serializes back to itself. -/
theorem mem_allPaths_parse (k : Str) (h : k ∈ allPaths) :
    ∃ p : AtomPath, AtomPath.from_string k = some p ∧ p.validate = true ∧
      p.to_string = k := by
  rw [allPaths_eq_map] at h
  obtain ⟨p, hp, rfl⟩ := List.mem_map.1 h
  have hv := allTuples_validate p hp
  exact ⟨p, from_string_to_string p hv, hv, rfl⟩

/-- The guard shared by `set_leaf` and `get_leaf` (atomvm.py lines 147 and 157):
the path parses and every segment passes domain validation. -/
def validPath (path : Str) : Bool :=
  match AtomPath.from_string path with
  | none => false
  | some p => p.validate

/-- The state invariant maintained by every operation: fixed bank sizes, and a
leaf dict whose keys are distinct canonical path strings. -/
def goodState (s : VMState) : Prop :=
  s.logic4.length = 4 ∧ s.record16.length = 16 ∧ s.context64.length = 64 ∧
  s.state256.length = 256 ∧ (s.leaves.map Prod.fst).Nodup ∧
  (∀ k ∈ s.leaves.map Prod.fst, k ∈ allPaths)

set_option maxRecDepth 10000 in
theorem allPaths_length : allPaths.length = 512 := by decide

theorem validPath_iff_mem (k : Str) : validPath k = true ↔ k ∈ allPaths := by
  constructor
  · intro h
    unfold validPath at h
    rcases from_string_cases k with ⟨f, c, b, r, cl, l, rel, a, hsplit, hparse⟩ | ⟨_, hnone⟩
    · rw [hparse] at h
      have hts := to_string_of_splitOnDot k _ _ _ _ _ _ _ _ hsplit
      exact hts ▸ validate_to_string_mem _ h
    · rw [hnone] at h
      cases h
  · intro h
    obtain ⟨p, hp, hv, _⟩ := mem_allPaths_parse k h
    unfold validPath
    rw [hp]
    exact hv

/-- C1: Path codec round-trip. Parsing the serialization of any domain-valid
CanonicalPath returns that path, and serializing the parse of any
syntactically well-formed 9-segment string with leading token `State` returns
the original string, independent of domain validity. -/
theorem c1_path_codec_roundtrip :
    (∀ p : AtomPath, p.validate = true → AtomPath.from_string p.to_string = some p) ∧
    (∀ s : Str, (splitOnDot s).length = 9 → (splitOnDot s).head? = some "State".data →
      (AtomPath.from_string s).map AtomPath.to_string = some s) := by
  constructor
  · exact from_string_to_string
  · intro s h9 hS
    rcases from_string_cases s with ⟨f, c, b, r, cl, l, rel, a, hsplit, hparse⟩ | ⟨hno, _⟩
    · rw [hparse]
      simp only [Option.map_some']
      rw [to_string_of_splitOnDot s _ _ _ _ _ _ _ _ hsplit]
    · exact absurd ⟨h9, hS⟩ hno

/-- Witness for C1 at a concrete valid path and a concrete well-formed but
domain-invalid string. -/
theorem c1_path_codec_roundtrip_witness :
    AtomPath.from_string (AtomPath.to_string ⟨"FrameA".data, "Local".data, "Block1".data,
        "Record1".data, "Closure1".data, "Logic1".data, "Relation1".data, "L".data⟩) =
      some ⟨"FrameA".data, "Local".data, "Block1".data, "Record1".data, "Closure1".data,
        "Logic1".data, "Relation1".data, "L".data⟩ ∧
    (AtomPath.from_string "State.w1.w2.w3.w4.w5.w6.w7.w8".data).map AtomPath.to_string =
      some "State.w1.w2.w3.w4.w5.w6.w7.w8".data :=
  ⟨c1_path_codec_roundtrip.1 _ (by decide),
   c1_path_codec_roundtrip.2 _ (by decide) (by decide)⟩

/-- C2: `fold` is the bottom-up pairwise reduction: the empty sequence yields
`Ø`; a single element is the result; otherwise one halving pass replaces
consecutive non-overlapping pairs left to right with `pair(x, y)`, carrying a
final unpaired element unchanged to the end of the next level, and the fold
repeats on the halved sequence until one element remains. In particular
`fold([a]) = a` and `fold([a,b]) = "(a . b)"`. -/
theorem c2_fold_pairwise_reduction :
    build_tree ([] : List Val) = "Ø".data ∧
    (∀ x : Val, build_tree [x] = x) ∧
    (∀ (x y : Val) (rest : List Val),
      build_tree (x :: y :: rest) = build_tree (pairStep (x :: y :: rest))) ∧
    (∀ (x y : Val) (rest : List Val), pairStep (x :: y :: rest) = pair x y :: pairStep rest) ∧
    (∀ x : Val, pairStep [x] = [x]) ∧
    pairStep ([] : List Val) = [] ∧
    (∀ a b : Val, build_tree [a, b] = pair a b) ∧
    (∀ a b : Val, pair a b = "(".data ++ a ++ " . ".data ++ b ++ ")".data) := by
  refine ⟨by simp [build_tree], fun x => by simp [build_tree], fun x y rest => ?_,
    fun x y rest => rfl, fun x => rfl, rfl, fun a b => by simp [build_tree, pairStep],
    fun a b => by simp [pair]⟩
  conv_lhs => rw [build_tree]

/-- C3 counterexample: at `a = "a"`, `b = "b"`, `c = "c"` the fold of three
elements is `((a . b) . c)`, not the doubly parenthesized
`"(" + pair(pair(a,b), c) + ")" = (((a . b) . c))` the claim demands. -/
theorem c3_counterexample :
    ¬ (build_tree ["a".data, "b".data, "c".data] =
      "(".data ++ pair (pair "a".data "b".data) "c".data ++ ")".data) := by
  simp [build_tree, pairStep]
  decide

/-- C3 (amended): for all values, `fold([a,b,c])` equals `pair(pair(a,b), c)`
itself (odd element carried to the end and paired last, with no extra outer
parentheses), and `fold([a,b,c,d,e,f,g,h])` is the fully balanced 3-level
nested pairing with no carries. -/
theorem c3_fold_examples :
    (∀ a b c : Val, build_tree [a, b, c] = pair (pair a b) c) ∧
    (∀ a b c d e f g h : Val, build_tree [a, b, c, d, e, f, g, h] =
      pair (pair (pair a b) (pair c d)) (pair (pair e f) (pair g h))) := by
  constructor
  · intro a b c
    simp [build_tree, pairStep]
  · intro a b c d e f g h
    simp [build_tree, pairStep]

/-- C8: `from_string` fails exactly when the input does not split into 9
dot-separated segments with first segment `"State"`; on success the remaining
8 segments populate the tuple in order (frame, context, block, record,
closure, logic, relation, atom) with no domain validation. -/
theorem c8_parse_characterization :
    (∀ s : Str, AtomPath.from_string s = none ↔
      ¬((splitOnDot s).length = 9 ∧ (splitOnDot s).head? = some "State".data)) ∧
    (∀ (s f c b r cl l rel a : Str),
      splitOnDot s = ["State".data, f, c, b, r, cl, l, rel, a] →
      AtomPath.from_string s = some ⟨f, c, b, r, cl, l, rel, a⟩) := by
  constructor
  · intro s
    constructor
    · intro hnone
      rcases from_string_cases s with ⟨f, c, b, r, cl, l, rel, a, _, hparse⟩ | ⟨hno, _⟩
      · rw [hparse] at hnone
        cases hnone
      · exact hno
    · intro hno
      rcases from_string_cases s with ⟨f, c, b, r, cl, l, rel, a, hsplit, _⟩ | ⟨_, hnone⟩
      · exact absurd ⟨by rw [hsplit]; rfl, by rw [hsplit]; rfl⟩ hno
      · exact hnone
  · intro s f c b r cl l rel a h
    exact from_string_of_splitOnDot s f c b r cl l rel a h

/-- Witness for C8: a malformed input (8 segments), a malformed input (wrong
leading token), and a well-formed input with out-of-domain segments that still
parses into the tuple in order. -/
theorem c8_parse_characterization_witness :
    (AtomPath.from_string "State.a.b.c.d.e.f.g".data = none ↔
      ¬((splitOnDot "State.a.b.c.d.e.f.g".data).length = 9 ∧
        (splitOnDot "State.a.b.c.d.e.f.g".data).head? = some "State".data)) ∧
    AtomPath.from_string "State.q1.q2.q3.q4.q5.q6.q7.q8".data =
      some ⟨"q1".data, "q2".data, "q3".data, "q4".data, "q5".data, "q6".data,
        "q7".data, "q8".data⟩ :=
  ⟨c8_parse_characterization.1 _,
   c8_parse_characterization.2 _ _ _ _ _ _ _ _ _ (by decide)⟩

/-- C9: `push(x)` then `pop()` returns `x` and restores the prior stack (and
the entire prior state); `pop()` on an empty stack returns the "no value"
indicator with the state unchanged, not an error. -/
theorem c9_stack_push_pop :
    (∀ (s : VMState) (x : Val), AtomVM.pop_stack (AtomVM.push_stack s x) = (some x, s)) ∧
    (∀ s : VMState, s.stack = [] → AtomVM.pop_stack s = (none, s)) := by
  constructor
  · intro s x
    unfold AtomVM.pop_stack AtomVM.push_stack
    simp [List.getLast?_concat, List.dropLast_concat]
  · intro s h
    unfold AtomVM.pop_stack
    rw [h]
    rfl

/-- Witness for C9 on the freshly initialized VM. -/
theorem c9_stack_push_pop_witness :
    AtomVM.pop_stack (AtomVM.push_stack VMState.init "x".data) = (some "x".data, VMState.init) ∧
    AtomVM.pop_stack VMState.init = (none, VMState.init) :=
  ⟨c9_stack_push_pop.1 VMState.init "x".data, c9_stack_push_pop.2 VMState.init rfl⟩

/-- C4: on a valid path, `set(path, v)` reports success and a following
`get(path)` returns `v` (or `Ø` when `v` was the empty string); on a path
that fails parsing or domain validation, `set` returns the unchanged state
with a failure flag and `get` reports failure, with no mutation of any VM
state. -/
theorem c4_set_get_roundtrip :
    (∀ (s : VMState) (path : Str) (v : Val),
      validPath path = true →
        (AtomVM.set_leaf s path v).2 = true ∧
        AtomVM.get_leaf (AtomVM.set_leaf s path v).1 path =
          some (if v = [] then "Ø".data else v)) ∧
    (∀ (s : VMState) (path : Str) (v : Val),
      validPath path = false →
        AtomVM.set_leaf s path v = (s, false) ∧ AtomVM.get_leaf s path = none) := by
  constructor
  · intro s path v hvalid
    unfold validPath at hvalid
    rcases hparse : AtomPath.from_string path with _ | p
    · rw [hparse] at hvalid
      cases hvalid
    · rw [hparse] at hvalid
      have hv : p.validate = true := hvalid
      constructor
      · simp [AtomVM.set_leaf, hparse, hv]
      · simp [AtomVM.set_leaf, AtomVM.get_leaf, hparse, hv, dictGet_dictSet_self]
  · intro s path v hinvalid
    unfold validPath at hinvalid
    rcases hparse : AtomPath.from_string path with _ | p
    · constructor
      · simp [AtomVM.set_leaf, hparse]
      · simp [AtomVM.get_leaf, hparse]
    · rw [hparse] at hinvalid
      have hv : p.validate = false := hinvalid
      constructor
      · simp [AtomVM.set_leaf, hparse, hv]
      · simp [AtomVM.get_leaf, hparse, hv]

/-- Witness for C4: a concrete valid path stores and reads back a value on the
fresh VM, and a concrete invalid path makes both operations fail without any
state change. -/
theorem c4_set_get_roundtrip_witness :
    ((AtomVM.set_leaf VMState.init
        "State.FrameA.Local.Block1.Record1.Closure1.Logic1.Relation1.L".data "hello".data).2 =
      true ∧
     AtomVM.get_leaf (AtomVM.set_leaf VMState.init
        "State.FrameA.Local.Block1.Record1.Closure1.Logic1.Relation1.L".data "hello".data).1
        "State.FrameA.Local.Block1.Record1.Closure1.Logic1.Relation1.L".data =
      some (if "hello".data = [] then "Ø".data else "hello".data)) ∧
    (AtomVM.set_leaf VMState.init "State.FrameZ.Local.Block1.Record1.Closure1.Logic1.Relation1.L".data
        "x".data = (VMState.init, false) ∧
     AtomVM.get_leaf VMState.init
        "State.FrameZ.Local.Block1.Record1.Closure1.Logic1.Relation1.L".data = none) :=
  ⟨c4_set_get_roundtrip.1 VMState.init _ _ (by decide),
   c4_set_get_roundtrip.2 VMState.init _ _ (by decide)⟩

/-- C5 counterexample: on the freshly initialized VM, `zero_state` returns 512
paths — the Cartesian product 2·4·2·2·2·2·2·2 of the domain vocabularies —
not the 256 the claim states. -/
theorem c5_zero_state_counterexample :
    ¬ ((AtomVM.zero_state VMState.init).2.length = 256) := by
  have h : (AtomVM.zero_state VMState.init).2 = allPaths := rfl
  rw [h, allPaths_length]
  omega

/-- C5 (amended): `zero_state`, from any state, deterministically enumerates
the full 512-element Cartesian product of the domain vocabularies in fixed
nesting order (frame outermost, atom innermost), writes `Ø` to every resulting
path, and returns exactly 512 distinct paths in enumeration order; `get` on
each returned path then yields `Ø`, so a repeated call resets every leaf. -/
theorem c5_zero_state_characterization :
    ∀ s : VMState,
      (AtomVM.zero_state s).2 = allPaths ∧
      (AtomVM.zero_state s).2.length = 512 ∧
      (AtomVM.zero_state s).2.Nodup ∧
      (∀ path ∈ (AtomVM.zero_state s).2,
        AtomVM.get_leaf (AtomVM.zero_state s).1 path = some "Ø".data) := by
  intro s
  refine ⟨rfl, allPaths_length, allPaths_nodup, ?_⟩
  intro path hpath
  obtain ⟨p, hparse, hvalid, _⟩ := mem_allPaths_parse path hpath
  unfold AtomVM.get_leaf
  rw [hparse]
  simp only [if_pos hvalid]
  have hleaves : (AtomVM.zero_state s).1.leaves =
      allPaths.foldl (fun d p => dictSet d p "Ø".data) s.leaves := by
    simp only [AtomVM.zero_state]
  rw [hleaves, dictGet_foldl_mem allPaths s.leaves path "Ø".data hpath]
  rfl

/-- Witness for C5 on the freshly initialized VM and the first enumerated
path. -/
theorem c5_zero_state_characterization_witness :
    (AtomVM.zero_state VMState.init).2 = allPaths ∧
    (AtomVM.zero_state VMState.init).2.length = 512 ∧
    AtomVM.get_leaf (AtomVM.zero_state VMState.init).1
      "State.FrameA.Local.Block1.Record1.Closure1.Logic1.Relation1.L".data =
      some "Ø".data :=
  ⟨(c5_zero_state_characterization VMState.init).1,
   (c5_zero_state_characterization VMState.init).2.1,
   (c5_zero_state_characterization VMState.init).2.2.2 _
     (validate_to_string_mem ⟨"FrameA".data, "Local".data, "Block1".data, "Record1".data,
       "Closure1".data, "Logic1".data, "Relation1".data, "L".data⟩ (by decide))⟩

/-- C6: batched loads. On Context64 (size 64) the load is a no-op unless
`0 ≤ batch < 4`, on State256 (size 256) unless `0 ≤ batch < 16`; on a valid
batch index, `min(16, len(values))` values are copied to positions
`batch*16 ..`, all other positions of the bank and all other VM state are
unchanged. -/
theorem c6_load_batch :
    ∀ (s : VMState) (b : Int) (vs : List Val),
      (¬(0 ≤ b ∧ b < 4) → AtomVM.load_to_context64 s b vs = s) ∧
      (¬(0 ≤ b ∧ b < 16) → AtomVM.load_to_state256 s b vs = s) ∧
      (0 ≤ b ∧ b < 4 → s.context64.length = 64 →
        (AtomVM.load_to_context64 s b vs).context64.length = 64 ∧
        (∀ j, j < 64 →
          ((AtomVM.load_to_context64 s b vs).context64)[j]? =
            if b.toNat * 16 ≤ j ∧ j < b.toNat * 16 + min 16 vs.length
            then vs[j - b.toNat * 16]? else s.context64[j]?) ∧
        (AtomVM.load_to_context64 s b vs).logic4 = s.logic4 ∧
        (AtomVM.load_to_context64 s b vs).record16 = s.record16 ∧
        (AtomVM.load_to_context64 s b vs).state256 = s.state256 ∧
        (AtomVM.load_to_context64 s b vs).stack = s.stack ∧
        (AtomVM.load_to_context64 s b vs).leaves = s.leaves ∧
        (AtomVM.load_to_context64 s b vs).pc = s.pc) ∧
      (0 ≤ b ∧ b < 16 → s.state256.length = 256 →
        (AtomVM.load_to_state256 s b vs).state256.length = 256 ∧
        (∀ j, j < 256 →
          ((AtomVM.load_to_state256 s b vs).state256)[j]? =
            if b.toNat * 16 ≤ j ∧ j < b.toNat * 16 + min 16 vs.length
            then vs[j - b.toNat * 16]? else s.state256[j]?) ∧
        (AtomVM.load_to_state256 s b vs).logic4 = s.logic4 ∧
        (AtomVM.load_to_state256 s b vs).record16 = s.record16 ∧
        (AtomVM.load_to_state256 s b vs).context64 = s.context64 ∧
        (AtomVM.load_to_state256 s b vs).stack = s.stack ∧
        (AtomVM.load_to_state256 s b vs).leaves = s.leaves ∧
        (AtomVM.load_to_state256 s b vs).pc = s.pc) := by
  intro s b vs
  refine ⟨?_, ?_, ?_, ?_⟩
  · intro h
    unfold AtomVM.load_to_context64
    rw [if_neg h]
  · intro h
    unfold AtomVM.load_to_state256
    rw [if_neg h]
  · intro h hlen
    unfold AtomVM.load_to_context64
    rw [if_pos h]
    refine ⟨by simp [loadSeg_length, hlen], ?_, rfl, rfl, rfl, rfl, rfl, rfl⟩
    intro j hj
    simp only
    rw [loadSeg_getElem?]
    have hiff : (b.toNat * 16 ≤ j ∧ j < b.toNat * 16 + min 16 vs.length ∧
        j < s.context64.length) ↔
        (b.toNat * 16 ≤ j ∧ j < b.toNat * 16 + min 16 vs.length) := by
      rw [hlen]
      exact ⟨fun hh => ⟨hh.1, hh.2.1⟩, fun hh => ⟨hh.1, hh.2, hj⟩⟩
    simp only [hiff]
  · intro h hlen
    unfold AtomVM.load_to_state256
    rw [if_pos h]
    refine ⟨by simp [loadSeg_length, hlen], ?_, rfl, rfl, rfl, rfl, rfl, rfl⟩
    intro j hj
    simp only
    rw [loadSeg_getElem?]
    have hiff : (b.toNat * 16 ≤ j ∧ j < b.toNat * 16 + min 16 vs.length ∧
        j < s.state256.length) ↔
        (b.toNat * 16 ≤ j ∧ j < b.toNat * 16 + min 16 vs.length) := by
      rw [hlen]
      exact ⟨fun hh => ⟨hh.1, hh.2.1⟩, fun hh => ⟨hh.1, hh.2, hj⟩⟩
    simp only [hiff]

/-- Witness for C6: on the fresh VM, batch index 5 on Context64 is a no-op,
and batch index 2 writes position 32 from the input. -/
theorem c6_load_batch_witness :
    AtomVM.load_to_context64 VMState.init 5 ["v".data] = VMState.init ∧
    ((AtomVM.load_to_context64 VMState.init 2 ["v".data]).context64)[32]? =
      (if (2 : Int).toNat * 16 ≤ 32 ∧
          32 < (2 : Int).toNat * 16 + min 16 ([("v".data : Val)] : List Val).length
       then ([("v".data : Val)] : List Val)[32 - (2 : Int).toNat * 16]?
       else VMState.init.context64[32]?) :=
  ⟨(c6_load_batch VMState.init 5 ["v".data]).1 (by decide),
   ((c6_load_batch VMState.init 2 ["v".data]).2.2.1 (by decide)
     (by simp [VMState.init])).2.1 32 (by decide)⟩

/-- C7: direct loads. On Logic4 (size 4) and Record16 (size 16),
`load(values)` copies exactly `min(size, len(values))` values into positions
`0 ..`, silently drops any excess input, and leaves every remaining trailing
position of the bank and all other VM state unchanged; in particular loading
five values into the size-4 bank stores the first four and drops the fifth. -/
theorem c7_direct_load :
    ∀ (s : VMState) (vs : List Val),
      (s.logic4.length = 4 →
        (AtomVM.load_to_logic4 s vs).logic4.length = 4 ∧
        (∀ j, j < 4 →
          ((AtomVM.load_to_logic4 s vs).logic4)[j]? =
            if j < min 4 vs.length then vs[j]? else s.logic4[j]?) ∧
        (AtomVM.load_to_logic4 s vs).record16 = s.record16 ∧
        (AtomVM.load_to_logic4 s vs).context64 = s.context64 ∧
        (AtomVM.load_to_logic4 s vs).state256 = s.state256 ∧
        (AtomVM.load_to_logic4 s vs).stack = s.stack ∧
        (AtomVM.load_to_logic4 s vs).leaves = s.leaves ∧
        (AtomVM.load_to_logic4 s vs).pc = s.pc) ∧
      (s.record16.length = 16 →
        (AtomVM.load_to_record16 s vs).record16.length = 16 ∧
        (∀ j, j < 16 →
          ((AtomVM.load_to_record16 s vs).record16)[j]? =
            if j < min 16 vs.length then vs[j]? else s.record16[j]?) ∧
        (AtomVM.load_to_record16 s vs).logic4 = s.logic4 ∧
        (AtomVM.load_to_record16 s vs).context64 = s.context64 ∧
        (AtomVM.load_to_record16 s vs).state256 = s.state256 ∧
        (AtomVM.load_to_record16 s vs).stack = s.stack ∧
        (AtomVM.load_to_record16 s vs).leaves = s.leaves ∧
        (AtomVM.load_to_record16 s vs).pc = s.pc) ∧
      (∀ a b c d e : Val, s.logic4.length = 4 →
        (AtomVM.load_to_logic4 s [a, b, c, d, e]).logic4 = [a, b, c, d]) := by
  intro s vs
  refine ⟨?_, ?_, ?_⟩
  · intro hlen
    unfold AtomVM.load_to_logic4
    refine ⟨by simp [loadSeg_length, hlen], ?_, rfl, rfl, rfl, rfl, rfl, rfl⟩
    intro j hj
    simp only
    rw [loadSeg_getElem?]
    have hiff : (0 ≤ j ∧ j < 0 + min 4 vs.length ∧ j < s.logic4.length) ↔
        (j < min 4 vs.length) := by
      rw [hlen]
      exact ⟨fun hh => by omega, fun hh => by omega⟩
    simp only [hiff, Nat.sub_zero]
  · intro hlen
    unfold AtomVM.load_to_record16
    refine ⟨by simp [loadSeg_length, hlen], ?_, rfl, rfl, rfl, rfl, rfl, rfl⟩
    intro j hj
    simp only
    rw [loadSeg_getElem?]
    have hiff : (0 ≤ j ∧ j < 0 + min 16 vs.length ∧ j < s.record16.length) ↔
        (j < min 16 vs.length) := by
      rw [hlen]
      exact ⟨fun hh => by omega, fun hh => by omega⟩
    simp only [hiff, Nat.sub_zero]
  · intro a b c d e hlen
    unfold AtomVM.load_to_logic4
    simp only
    have h4 : (loadSeg s.logic4 0 [a, b, c, d, e] 4).length = 4 := by
      rw [loadSeg_length, hlen]
    apply List.ext_getElem?
    intro j
    by_cases hj : j < 4
    · rw [loadSeg_getElem?]
      rw [if_pos (by simp; omega)]
      interval_cases j <;> rfl
    · rw [List.getElem?_eq_none (by rw [h4]; omega),
        List.getElem?_eq_none (by simp only [List.length_cons, List.length_nil]; omega)]

/-- Witness for C7: on the fresh VM, loading five values into Logic4 stores
the first four and drops the fifth. -/
theorem c7_direct_load_witness :
    (AtomVM.load_to_logic4 VMState.init
      ["a".data, "b".data, "c".data, "d".data, "e".data]).logic4 =
      ["a".data, "b".data, "c".data, "d".data] :=
  (c7_direct_load VMState.init []).2.2 "a".data "b".data "c".data "d".data "e".data
    (by simp [VMState.init])

/-- C10 counterexample: after `zero_state` on the fresh VM the leaf store
holds 512 entries, so the leaf count does exceed 256. -/
theorem c10_leaf_bound_counterexample :
    ¬ ((AtomVM.zero_state VMState.init).1.leaves.length ≤ 256) := by
  have h : (AtomVM.zero_state VMState.init).1.leaves =
      allPaths.foldl (fun d p => dictSet d p "Ø".data) [] := by
    simp only [AtomVM.zero_state]
    rfl
  rw [h, foldl_dictSet_length_fresh allPaths [] "Ø".data allPaths_nodup (by simp),
    allPaths_length]
  omega

theorem goodState_set_leaves (s : VMState) (d : List (Str × Val)) (hs : goodState s)
    (hnodup : (d.map Prod.fst).Nodup) (hsub : ∀ k ∈ d.map Prod.fst, k ∈ allPaths) :
    goodState { s with leaves := d } :=
  ⟨hs.1, hs.2.1, hs.2.2.1, hs.2.2.2.1, hnodup, hsub⟩

theorem goodState_set_logic4 (s : VMState) (bank : List Val) (hs : goodState s)
    (hlen : bank.length = 4) : goodState { s with logic4 := bank } :=
  ⟨hlen, hs.2.1, hs.2.2.1, hs.2.2.2.1, hs.2.2.2.2.1, hs.2.2.2.2.2⟩

theorem goodState_set_record16 (s : VMState) (bank : List Val) (hs : goodState s)
    (hlen : bank.length = 16) : goodState { s with record16 := bank } :=
  ⟨hs.1, hlen, hs.2.2.1, hs.2.2.2.1, hs.2.2.2.2.1, hs.2.2.2.2.2⟩

theorem goodState_set_context64 (s : VMState) (bank : List Val) (hs : goodState s)
    (hlen : bank.length = 64) : goodState { s with context64 := bank } :=
  ⟨hs.1, hs.2.1, hlen, hs.2.2.2.1, hs.2.2.2.2.1, hs.2.2.2.2.2⟩

theorem goodState_set_state256 (s : VMState) (bank : List Val) (hs : goodState s)
    (hlen : bank.length = 256) : goodState { s with state256 := bank } :=
  ⟨hs.1, hs.2.1, hs.2.2.1, hlen, hs.2.2.2.2.1, hs.2.2.2.2.2⟩

theorem goodState_set_stack (s : VMState) (st : List Val) (hs : goodState s) :
    goodState { s with stack := st } :=
  ⟨hs.1, hs.2.1, hs.2.2.1, hs.2.2.2.1, hs.2.2.2.2.1, hs.2.2.2.2.2⟩

/-- C10 (amended): every state-mutating core operation preserves the bank
lengths 4, 16, 64 and 256 (elements are only overwritten in place, never
appended or removed), and every key ever present in the leaf store is one of
the 512 valid canonical path strings, so the leaf count never exceeds 512.
(`get_leaf`, `pair` and `build_tree` touch no mutable state in the source and
are embedded as pure functions.) -/
theorem c10_state_invariant :
    goodState VMState.init ∧
    (∀ k : Str, validPath k = true ↔ k ∈ allPaths) ∧
    allPaths.length = 512 ∧
    (∀ s, goodState s → goodState (AtomVM.zero_state s).1) ∧
    (∀ s path v, goodState s → goodState (AtomVM.set_leaf s path v).1) ∧
    (∀ s vs, goodState s → goodState (AtomVM.load_to_logic4 s vs)) ∧
    (∀ s vs, goodState s → goodState (AtomVM.load_to_record16 s vs)) ∧
    (∀ s b vs, goodState s → goodState (AtomVM.load_to_context64 s b vs)) ∧
    (∀ s b vs, goodState s → goodState (AtomVM.load_to_state256 s b vs)) ∧
    (∀ s v, goodState s → goodState (AtomVM.push_stack s v)) ∧
    (∀ s, goodState s → goodState (AtomVM.pop_stack s).2) ∧
    (∀ s, goodState s → s.leaves.length ≤ 512) := by
  refine ⟨?_, validPath_iff_mem, allPaths_length, ?_, ?_, ?_, ?_, ?_, ?_, ?_, ?_, ?_⟩
  · refine ⟨?_, ?_, ?_, ?_, ?_, ?_⟩
    · rw [show VMState.init.logic4 = List.replicate 4 "Ø".data from rfl, List.length_replicate]
    · rw [show VMState.init.record16 = List.replicate 16 "Ø".data from rfl,
        List.length_replicate]
    · rw [show VMState.init.context64 = List.replicate 64 "Ø".data from rfl,
        List.length_replicate]
    · rw [show VMState.init.state256 = List.replicate 256 "Ø".data from rfl,
        List.length_replicate]
    · rw [show VMState.init.leaves = ([] : List (Str × Val)) from rfl]
      simp
    · rw [show VMState.init.leaves = ([] : List (Str × Val)) from rfl]
      simp
  · intro s hs
    have heq : (AtomVM.zero_state s).1 =
        { s with leaves := allPaths.foldl (fun d p => dictSet d p "Ø".data) s.leaves } := by
      simp only [AtomVM.zero_state]
    rw [heq]
    exact goodState_set_leaves s _ hs (foldl_dictSet_keys_nodup _ _ _ hs.2.2.2.2.1)
      (fun k hk => (foldl_dictSet_keys_subset _ _ _ _ hk).elim (hs.2.2.2.2.2 k) id)
  · intro s path v hs
    rcases hparse : AtomPath.from_string path with _ | p
    · have heq : AtomVM.set_leaf s path v = (s, false) := by
        simp [AtomVM.set_leaf, hparse]
      rw [heq]
      exact hs
    · by_cases hv : p.validate = true
      · have hmem : path ∈ allPaths := by
          refine (validPath_iff_mem path).1 ?_
          unfold validPath
          rw [hparse]
          exact hv
        have heq : (AtomVM.set_leaf s path v).1 =
            { s with leaves := dictSet s.leaves path (if v = [] then "Ø".data else v) } := by
          simp [AtomVM.set_leaf, hparse, hv]
        rw [heq]
        refine goodState_set_leaves s _ hs (dictSet_keys_nodup _ _ _ hs.2.2.2.2.1) ?_
        intro k hk
        rcases dictSet_keys_subset _ _ _ _ hk with hk1 | hk1
        · exact hs.2.2.2.2.2 k hk1
        · exact hk1 ▸ hmem
      · have heq : AtomVM.set_leaf s path v = (s, false) := by
          simp [AtomVM.set_leaf, hparse, hv]
        rw [heq]
        exact hs
  · intro s vs hs
    exact goodState_set_logic4 s _ hs (by rw [loadSeg_length, hs.1])
  · intro s vs hs
    exact goodState_set_record16 s _ hs (by rw [loadSeg_length, hs.2.1])
  · intro s b vs hs
    unfold AtomVM.load_to_context64
    by_cases hb : 0 ≤ b ∧ b < 4
    · rw [if_pos hb]
      exact goodState_set_context64 s _ hs (by rw [loadSeg_length, hs.2.2.1])
    · rw [if_neg hb]
      exact hs
  · intro s b vs hs
    unfold AtomVM.load_to_state256
    by_cases hb : 0 ≤ b ∧ b < 16
    · rw [if_pos hb]
      exact goodState_set_state256 s _ hs (by rw [loadSeg_length, hs.2.2.2.1])
    · rw [if_neg hb]
      exact hs
  · intro s v hs
    exact goodState_set_stack s _ hs
  · intro s hs
    unfold AtomVM.pop_stack
    rcases hst : s.stack.getLast? with _ | v
    · exact hs
    · exact goodState_set_stack s _ hs
  · intro s hs
    obtain ⟨-, -, -, -, h5, h6⟩ := hs
    have hlen : s.leaves.length = (s.leaves.map Prod.fst).length :=
      (List.length_map _ _).symm
    have hcard : (s.leaves.map Prod.fst).toFinset.card = (s.leaves.map Prod.fst).length :=
      List.toFinset_card_of_nodup h5
    have hsub : (s.leaves.map Prod.fst).toFinset ⊆ allPaths.toFinset := by
      intro x hx
      exact List.mem_toFinset.2 (h6 x (List.mem_toFinset.1 hx))
    have hle1 := Finset.card_le_card hsub
    have hle2 : allPaths.toFinset.card ≤ allPaths.length := allPaths.toFinset_card_le
    rw [allPaths_length] at hle2
    omega

/-- Witness for C10: the invariant holds on the fresh VM, is kept by a
concrete push, and bounds the fresh VM's leaf count. -/
theorem c10_state_invariant_witness :
    goodState (AtomVM.push_stack VMState.init "x".data) ∧ VMState.init.leaves.length ≤ 512 :=
  ⟨c10_state_invariant.2.2.2.2.2.2.2.2.2.1 VMState.init "x".data c10_state_invariant.1,
   c10_state_invariant.2.2.2.2.2.2.2.2.2.2.2 VMState.init c10_state_invariant.1⟩
